import Mathlib

/-!
Verification of the filehandle core of unfs3 (`fh.c`, `fh_cache.c`).

The C code is shallowly embedded:

* C strings (paths, directory entry names) are modelled as `List Char`.
* The filesystem seen through `lstat`/`opendir`/`readdir` is a finite tree
  (`FsTree`).  `lstat` resolves a path string by splitting it at slashes and
  dropping empty components (POSIX: repeated slashes collapse), `readdir`
  yields the directory entries in list order; the entries `.` and `..` are
  not part of the modelled listing (the code treats them specially only in
  the descend test of `fh_rec`).
* machine integers become `Nat` with explicit `% 2 ^ 32` where the code
  truncates to a `uint32` field.
* the uninitialized stack contents of the local `unfs3_fh_t fh` in
  `fh_comp_raw` are made explicit as a `junk` parameter: on the root path
  the function returns without ever assigning `fh.len`/`fh.inos`.
-/

/-- Characters of a C string; paths and entry names are lists of characters. -/
abbrev CStr := List Char

/-- Shorthand turning a Lean string literal into the `List Char` model. -/
def strOf (s : String) : CStr := s.toList

/-- FH_HASH from fh.c:30: `(n + 3 * (n >> 8) + 5 * (n >> 16)) & 0xFF`.
The final `& 0xFF` makes any word-size wraparound of the sum irrelevant,
since 256 divides every power-of-two modulus, so the hash is computed
exactly on `Nat`. -/
def fhHash (n : Nat) : Nat := (n + 3 * (n >>> 8) + 5 * (n >>> 16)) % 256

/-- The part of `struct stat` the filehandle code consumes: `st_dev`,
`st_ino`, the generation number and whether `S_ISDIR` holds. -/
structure FileStat where
  dev : Nat
  ino : Nat
  gen : Nat
  isDir : Bool
deriving DecidableEq

instance : Inhabited FileStat := ⟨⟨0, 0, 0, false⟩⟩

/-- A finite filesystem tree: each object has a stat and (for directories)
a list of named children in `readdir` order. -/
inductive FsTree where
  | node (st : FileStat) (entries : List (CStr × FsTree))

/-- Stat of the object at the root of a subtree. -/
def FsTree.st : FsTree → FileStat
  | .node s _ => s

/-- Directory entries of a subtree root. -/
def FsTree.entries : FsTree → List (CStr × FsTree)
  | .node _ es => es

/-- Resolve a list of path components from a given node, one `readdir`-style
name lookup per component. -/
def fsFind : FsTree → List CStr → Option FsTree
  | t, [] => some t
  | t, c :: cs =>
    match t.entries.find? (fun e => e.1 == c) with
    | none => none
    | some e => fsFind e.2 cs

/-- Chunks of a path string between slashes, empty chunks included,
computed right to left: a slash opens a new (initially empty) chunk, any
other character extends the current first chunk. -/
def splitChunks (s : CStr) : List CStr :=
  s.foldr
    (fun c acc =>
      if c = '/' then [] :: acc
      else
        match acc with
        | [] => [[c]]
        | a :: as => (c :: a) :: as)
    []

/-- Split a path string at slashes, dropping empty components: the
component view a POSIX kernel takes of the string handed to
`lstat`/`opendir` (repeated slashes collapse, a leading or trailing slash
adds nothing). -/
def splitSlash (s : CStr) : List CStr :=
  (splitChunks s).filter (fun c => !c.isEmpty)

/-- Model of `lstat`: resolve the string, return the object's stat. -/
def lstatP (fs : FsTree) (s : CStr) : Option FileStat :=
  (fsFind fs (splitSlash s)).map FsTree.st

/-- Model of `opendir` + `readdir`: resolve the string; succeed with the
entry list only on a directory. -/
def opendirP (fs : FsTree) (s : CStr) : Option (List (CStr × FsTree)) :=
  match fsFind fs (splitSlash s) with
  | none => none
  | some t => if t.st.isDir then some t.entries else none

/-- Canonical absolute path text of a component list: `"/c1/c2/.../cn"`
(empty for `[]`). -/
def pathStr (comps : List CStr) : CStr :=
  (comps.map (fun c => '/' :: c)).flatten

/-- The `lead` string `fh_rec` carries when positioned at a component list:
the initial lead is `"/"` and each `sprintf(obj, "%s/%s", lead, name)`
appends a slash and a name, so the lead of depth `d` starts with a doubled
slash: `"//c1/.../cd"`. -/
def leadOf (comps : List CStr) : CStr := '/' :: pathStr comps

/-- MAX_DEPTH. Modelled from the spec: `FH_MAXLEN` lives in `fh.h`, which is
not under src/; the spec gives the reference value 64. -/
def FH_MAXLEN : Nat := 64

/-- Minimal wire size of a handle. Modelled from the spec: `FH_MINLEN` lives
in `fh.h`, not under src/; the spec's wire layout has a 13-byte fixed header
(`dev`,`ino`,`gen` as uint32, `len` as uint8 at offset 12). -/
def FH_MINLEN : Nat := 13

/-- System path limit. Modelled from the spec: `NFS_MAXPATHLEN` lives in
`nfs.h`, not under src/; the spec calls it the system path-length limit,
reference value 1024. -/
def NFS_MAXPATHLEN : Nat := 1024

/-- The in-memory filehandle `unfs3_fh_t`.  The `inos` array of the struct
has room for `FH_MAXLEN` bytes of which only the first `len` are meaningful;
the model stores exactly that meaningful prefix, so the `len` field is the
length of `inos` (see `UFH.len`). -/
structure UFH where
  dev : Nat
  ino : Nat
  gen : Nat
  inos : List Nat
deriving DecidableEq

/-- The `len` field of a handle: the number of meaningful `inos` entries. -/
def UFH.len (fh : UFH) : Nat := fh.inos.length

/-- fh.c:132: the all-zero handle used for error returns. -/
def invalid_fh : UFH := ⟨0, 0, 0, []⟩

/-- fh.c:122 `fh_valid`: `(int) (fh.dev != 0 && fh.ino != 0)`. -/
def fh_valid (fh : UFH) : Bool := fh.dev != 0 && fh.ino != 0

/-- fh.c:197 `fh_len`: `fh->len + sizeof(len) + sizeof(dev) + sizeof(ino) +
sizeof(gen)`, i.e. `len + 13` with the spec's field sizes. -/
def fh_len (fh : UFH) : Nat := fh.len + 13

/-- fh.c:103 `nfh_valid` on the raw wire bytes `b`: reject when the buffer
is shorter than `FH_MINLEN`, or when its length differs from
`fh_len(obj)` where the cast `obj`'s `len` field is the byte at offset 12. -/
def nfh_valid (b : List Nat) : Bool :=
  if b.length < FH_MINLEN then false
  else if b.length ≠ b.getD 12 0 + 13 then false
  else true

/-- fh.c:53 `get_gen` in the `HAVE_STRUCT_STAT_ST_GEN` build mode: return
`obuf.st_gen` (as the function's uint32 result).  The other two build modes
(ext2 ioctl probe, plain `st_ino` fallback) differ only in where the number
comes from; no claim depends on the choice. -/
def get_gen (buf : FileStat) : Nat := buf.gen % 2 ^ 32

/-- The do-while walk of fh.c:169-184, acting on the work buffer
`pre ++ rest` with the cursor at the start of `rest`: `strchr` finds the
next slash (`rest.dropWhile`), the buffer is truncated there (`cur`), the
prefix is `lstat`ed and its inode hash recorded; the loop continues past
the slash while `pos < FH_MAXLEN`, and reaching the bound with path left
over makes the handle invalid.  Each iteration advances the cursor past at
least one character, so the `fuel` argument is only a structural bound on
the number of iterations: `rest.length + 1` always suffices (see
`compWalk`), and the fuel-exhausted branch is unreachable. -/
def compWalkF (fs : FsTree) : Nat → CStr → CStr → Nat → Option (List Nat)
  | 0, _, _, _ => none
  | fuel + 1, pre, rest, pos =>
    let chunk := rest.takeWhile (fun d => d ≠ '/')
    let cur := pre ++ chunk
    match lstatP fs cur with
    | none => none
    | some buf =>
      match rest.dropWhile (fun d => d ≠ '/') with
      | [] => some [fhHash buf.ino]
      | _ :: rest2 =>
        if pos + 1 < FH_MAXLEN then
          (compWalkF fs fuel (cur ++ ['/']) rest2 (pos + 1)).map
            (fhHash buf.ino :: ·)
        else none

/-- The do-while walk of fh.c:169-184 with its always-sufficient fuel. -/
def compWalk (fs : FsTree) (pre rest : CStr) (pos : Nat) : Option (List Nat) :=
  compWalkF fs (rest.length + 1) pre rest pos

/-- fh.c:140 `fh_comp_raw`.  `junk` is the indeterminate stack content of
the local `unfs3_fh_t fh`: on the root path the function returns before
ever assigning `fh.len` or `fh.inos`, so the handle carries whatever bytes
the stack held (`junk` models the meaningful `len`-prefix those bytes
form).  The walk starts after the code overwrites `work[0]` with a slash,
hence `pre = "/"` and the cursor at `path.tail`. -/
def fh_comp_raw (fs : FsTree) (path : CStr) (need_dir : Bool) (junk : List Nat) : UFH :=
  match lstatP fs path with
  | none => invalid_fh
  | some buf =>
    if need_dir && !buf.isDir then invalid_fh
    else
      let dev := buf.dev % 2 ^ 32
      let ino := buf.ino % 2 ^ 32
      let gen := get_gen buf
      if path = ['/'] then ⟨dev, ino, gen, junk⟩
      else
        match compWalk fs ['/'] path.tail 0 with
        | none => invalid_fh
        | some hs => ⟨dev, ino, gen, hs⟩

/-- fh.c:207 `fh_extend`: fail at `FH_MAXLEN`, otherwise copy the parent,
overwrite `dev`/`ino`/`gen`, append `FH_HASH(ino)` of the new object at
position `len` and increment `len`. -/
def fh_extend (fh : UFH) (dev ino gen : Nat) : Option UFH :=
  if fh.len = FH_MAXLEN then none
  else some ⟨dev, ino, gen, fh.inos ++ [fhHash ino]⟩

/-- fh.c:230 `fh_extend_post`: `handle_follows = FALSE` exactly when
`fh_extend` returns NULL; `none` models that reply. -/
def fh_extend_post (fh : UFH) (dev ino gen : Nat) : Option UFH :=
  fh_extend fh dev ino gen

/-- The entry scan of fh.c:320-357 (the while loop of `fh_rec` over
`readdir`), searching directory `lead` whose still-unvisited entries are
the final list argument, with `h0` the hash `fh->inos[pos]` of the current
level.  An entry is skipped when the `NFS_MAXPATHLEN` guard fails; a stat
error is replaced by zero `dev`/`ino`; a `(dev, ino)` match returns
`sprintf(result, "%s/%s", lead + 1, name)` together with the stat stored
into the stat cache; otherwise a hash match on a non-dot name invokes
`descend` — the recursive `fh_rec` call at `pos + 1` — and a failed descent
resumes the scan. -/
def fhScan (fs : FsTree) (dev ino h0 : Nat)
    (descend : CStr → Option (CStr × FileStat)) (lead : CStr) :
    List (CStr × FsTree) → Option (CStr × FileStat)
  | [] => none
  | (name, _) :: es =>
    if lead.length + name.length + 1 < NFS_MAXPATHLEN then
      let obj := lead ++ '/' :: name
      let buf := (lstatP fs obj).getD ⟨0, 0, 0, false⟩
      if buf.dev = dev ∧ buf.ino = ino then
        some (lead.tail ++ '/' :: name, buf)
      else
        match
          (if name ≠ strOf "." ∧ name ≠ strOf ".." ∧ fhHash buf.ino = h0 then
            descend obj
          else none) with
        | some r => some r
        | none => fhScan fs dev ino h0 descend lead es
    else fhScan fs dev ino h0 descend lead es

/-- fh.c:301 `fh_rec`: give up when `pos` has reached `fh->len` (the trail
is exhausted), otherwise open the directory `lead` and scan its entries,
descending through the recursive call with the rest of the trail. -/
def fhRec (fs : FsTree) (dev ino : Nat) :
    List Nat → CStr → Option (CStr × FileStat)
  | [], _ => none
  | h0 :: tr, lead =>
    match opendirP fs lead with
    | none => none
    | some es =>
      fhScan fs dev ino h0 (fun obj => fhRec fs dev ino tr obj) lead es

/-- fh.c:366 `fh_decomp_raw` together with the stat `fh_rec` stores into the
stat cache on a match (`none` in the root short-circuit, which does not
touch the stat cache). -/
def fh_decomp_rawS (fs : FsTree) (fh : UFH) : Option CStr × Option FileStat :=
  if fh.len = 0 then (some ['/'], none)
  else
    match fhRec fs fh.dev fh.ino fh.inos ['/'] with
    | some (r, buf) => (some r, some buf)
    | none => (none, none)

/-- The path value returned by fh.c:366 `fh_decomp_raw` (NULL becomes
`none`; the caller never passes a NULL handle pointer in the model). -/
def fh_decomp_raw (fs : FsTree) (fh : UFH) : Option CStr :=
  (fh_decomp_rawS fs fh).1

/-- Number of slots of the path cache, fh_cache.c:22. -/
def CACHE_ENTRIES : Nat := 4096

/-- One slot of the path cache (`unfs3_cache_t`, fh_cache.c:24). -/
structure CacheEntry where
  dev : Nat
  ino : Nat
  path : CStr
  use : Nat
deriving DecidableEq

/-- A zeroed cache slot (the state `fh_cache_init`/`fh_cache_inval` leave). -/
def emptyCE : CacheEntry := ⟨0, 0, [], 0⟩

/-- The module-level mutable state of fh.c and fh_cache.c: the cache array
(total function, every index outside the scanned ranges staying zeroed),
the statistics counters, the LRU counter and the single-slot stat cache. -/
structure FhState where
  fh_cache : Nat → CacheEntry
  fh_cache_max : Nat
  fh_cache_time : Nat
  fh_cache_use : Nat
  fh_cache_hit : Nat
  st_cache_valid : Bool
  st_cache : FileStat

/-- fh_cache.c:45 `fh_cache_next`: `return ++fh_cache_time;`. -/
def fh_cache_next (s : FhState) : Nat × FhState :=
  (s.fh_cache_time + 1, { s with fh_cache_time := s.fh_cache_time + 1 })

/-- The scan of fh_cache.c:76-83 over all slots: return the first empty
slot; otherwise track `best`/`best_idx` under the comparison
`fh_cache[i].use < best` with `best` an `int` starting at `-1`. -/
def lruLoop (cache : Nat → CacheEntry) : List Nat → Int → Nat → Nat
  | [], _, bestIdx => bestIdx
  | i :: is, best, bestIdx =>
    if (cache i).use = 0 then i
    else if ((cache i).use : Int) < best then lruLoop cache is ((cache i).use : Int) i
    else lruLoop cache is best bestIdx

/-- fh_cache.c:65 `fh_cache_lru`: hand out the next fresh slot while the
cache is cold, else run the scan. -/
def fh_cache_lru (s : FhState) : Nat × FhState :=
  if s.fh_cache_max < CACHE_ENTRIES - 1 then
    (s.fh_cache_max, { s with fh_cache_max := s.fh_cache_max + 1 })
  else
    (lruLoop s.fh_cache (List.range CACHE_ENTRIES) (-1) 0, s)

/-- fh_cache.c:90 `fh_cache_inval`: zero the slot. -/
def fh_cache_inval (s : FhState) (idx : Nat) : FhState :=
  { s with fh_cache := fun j => if j = idx then emptyCE else s.fh_cache j }

/-- The scan of fh_cache.c:107-111: first index in `0 .. fh_cache_max`
(inclusive) whose slot matches `(dev, ino)`. -/
def idxLoop (cache : Nat → CacheEntry) (dev ino : Nat) : List Nat → Option Nat
  | [] => none
  | i :: is =>
    if (cache i).dev = dev ∧ (cache i).ino = ino then some i
    else idxLoop cache dev ino is

/-- fh_cache.c:102 `fh_cache_index`. -/
def fh_cache_index (s : FhState) (dev ino : Nat) : Option Nat :=
  idxLoop s.fh_cache dev ino (List.range (s.fh_cache_max + 1))

/-- fh_cache.c:119 `fh_cache_add`: reuse a matching slot, else the slot
`fh_cache_lru` picks; clear it and fill it with the new entry and the next
LRU stamp. -/
def fh_cache_add (s : FhState) (dev ino : Nat) (path : CStr) : FhState :=
  let p :=
    match fh_cache_index s dev ino with
    | some i => (i, s)
    | none => fh_cache_lru s
  let s2 := fh_cache_inval p.2 p.1
  let q := fh_cache_next s2
  { q.2 with
    fh_cache := fun j =>
      if j = p.1 then ⟨dev, ino, path, q.1⟩ else q.2.fh_cache j }

/-- fh_cache.c:143 `fh_cache_lookup`: on an index hit re-`lstat` the stored
path; a failed stat or a changed `(dev, ino)` clears the slot and misses;
a confirmed stat bumps the slot's `use`, fills the stat cache and returns
the stored path. -/
def fh_cache_lookup (fs : FsTree) (s : FhState) (dev ino : Nat) :
    Option CStr × FhState :=
  match fh_cache_index s dev ino with
  | none => (none, s)
  | some i =>
    match lstatP fs (s.fh_cache i).path with
    | none => (none, fh_cache_inval s i)
    | some buf =>
      if buf.dev = dev ∧ buf.ino = ino then
        let q := fh_cache_next s
        (some (s.fh_cache i).path,
          { q.2 with
            fh_cache := fun j =>
              if j = i then
                { q.2.fh_cache j with use := q.1 }
              else q.2.fh_cache j,
            st_cache_valid := true,
            st_cache := buf })
      else (none, fh_cache_inval s i)

/-- Little-endian uint32 read of the spec's packed wire layout (the struct
cast of fh.c:106; layout modelled from the spec since fh.h is not under
src/). -/
def parseLE (b : List Nat) (off : Nat) : Nat :=
  b.getD off 0 + 256 * b.getD (off + 1) 0 + 65536 * b.getD (off + 2) 0 +
    16777216 * b.getD (off + 3) 0

/-- View of a wire buffer as a `unfs3_fh_t` (the pointer cast in
`fh_decomp`/`nfh_valid`): header fields at offsets 0/4/8, `len` byte at 12,
`inos` the following `len` bytes. -/
def parseUFH (b : List Nat) : UFH :=
  ⟨parseLE b 0, parseLE b 4, parseLE b 8, (b.drop 13).take (b.getD 12 0)⟩

/-- fh_cache.c:181 `fh_decomp`: reject invalid wire handles (invalidating
the stat cache), try the cache, fall back to `fh_decomp_raw`, add fresh
results to the cache, and keep the statistics counters. -/
def fh_decomp (fs : FsTree) (s : FhState) (b : List Nat) :
    Option CStr × FhState :=
  if !nfh_valid b then (none, { s with st_cache_valid := false })
  else
    let obj := parseUFH b
    let r := fh_cache_lookup fs s obj.dev obj.ino
    let s2 := { r.2 with fh_cache_use := r.2.fh_cache_use + 1 }
    match r.1 with
    | some p => (some p, { s2 with fh_cache_hit := s2.fh_cache_hit + 1 })
    | none =>
      match fh_decomp_rawS fs obj with
      | (some res, stat) =>
        (some res,
          { fh_cache_add s2 obj.dev obj.ino res with
            st_cache_valid :=
              match stat with
              | some _ => true
              | none => s2.st_cache_valid,
            st_cache := stat.getD s2.st_cache })
      | (none, _) => (none, { s2 with st_cache_valid := false })

/-- fh_cache.c:217 `fh_comp`: run the raw encoder and, when the result is a
valid handle, add `(dev, ino, path)` to the path cache.  Neither branch
touches the stat cache. -/
def fh_comp (fs : FsTree) (s : FhState) (path : CStr) (need_dir : Bool)
    (junk : List Nat) : UFH × FhState :=
  let res := fh_comp_raw fs path need_dir junk
  if fh_valid res then (res, fh_cache_add s res.dev res.ino path)
  else (res, s)

/-- A directory entry name as delivered by `readdir` and usable as a path
component: nonempty, without slashes (the filesystem forbids them in
names), and none of the two dot entries the resolver refuses to descend
into (a real `readdir` lists them, but they are never stored children). -/
def validName (n : CStr) : Bool :=
  !n.isEmpty && !n.contains '/' && n != strOf "." && n != strOf ".."

mutual

/-- All `(dev, ino)` pairs of a subtree, root first. -/
def treePairs : FsTree → List (Nat × Nat)
  | .node st es => (st.dev, st.ino) :: entriesPairs es

/-- All `(dev, ino)` pairs below a list of directory entries. -/
def entriesPairs : List (CStr × FsTree) → List (Nat × Nat)
  | [] => []
  | e :: es => treePairs e.2 ++ entriesPairs es

end

mutual

/-- Structural well-formedness of a modelled filesystem: entry names are
valid and distinct within each directory, and only directories have
entries. -/
def okTree : FsTree → Bool
  | .node st es => (st.isDir || es.isEmpty) && okEntries es

def okEntries : List (CStr × FsTree) → Bool
  | [] => true
  | e :: es =>
    validName e.1 && (es.all fun f => f.1 != e.1) && okTree e.2 && okEntries es

end

mutual

/-- Every `dev` and `ino` in the tree fits in a uint32, so the truncation
to the handle's uint32 fields is the identity. -/
def boundedTree : FsTree → Bool
  | .node st es => decide (st.dev < 2 ^ 32) && decide (st.ino < 2 ^ 32) &&
      boundedEntries es

def boundedEntries : List (CStr × FsTree) → Bool
  | [] => true
  | e :: es => boundedTree e.2 && boundedEntries es

end

/-- A stable, sane filesystem tree: structurally well formed, every
`(dev, ino)` pair held by exactly one object (no hard links), all ids
within uint32 range. -/
def Wf (fs : FsTree) : Prop :=
  okTree fs = true ∧ (treePairs fs).Nodup ∧ boundedTree fs = true

instance (fs : FsTree) : Decidable (Wf fs) := by
  unfold Wf; infer_instance

/-- The inode-hash trail the encoder records for a component list: walking
down from `t`, the hash of each successively reached object's inode — every
prefix of the path, the final object included. -/
def trailDown (t : FsTree) : List CStr → List Nat
  | [] => []
  | c :: cs =>
    match t.entries.find? (fun e => e.1 == c) with
    | none => []
    | some e => fhHash e.2.st.ino :: trailDown e.2 cs

/-- Does the re-`lstat` of slot `i`'s stored path fail or report a
`(dev, ino)` other than the one asked for (the two clear-the-slot cases of
`fh_cache_lookup`)? -/
def staleAt (fs : FsTree) (s : FhState) (i dev ino : Nat) : Bool :=
  match lstatP fs (s.fh_cache i).path with
  | none => true
  | some buf => !(buf.dev == dev && buf.ino == ino)

/-- Concrete tree for the spec's scenarios: `/a/b/c` with inodes
10, 20, 30, all on device 1, root inode 2. -/
def demoFs : FsTree :=
  .node ⟨1, 2, 0, true⟩
    [(strOf "a", .node ⟨1, 10, 0, true⟩
      [(strOf "b", .node ⟨1, 20, 0, true⟩
        [(strOf "c", .node ⟨1, 30, 0, false⟩ [])])])]

/-- The component list of `/a/b/c`. -/
def compsDemo : List CStr := [strOf "a", strOf "b", strOf "c"]

/-- A state whose path cache is completely full (`fh_cache_max` at its
terminal value, every slot's `use` nonzero), with the minimal `use` stamp 7
sitting in slot 1 and a larger stamp 100 in slot 0. -/
def lruState : FhState where
  fh_cache := fun i =>
    if i = 0 then ⟨1, 2, strOf "/p0", 100⟩
    else if i = 1 then ⟨1, 3, strOf "/p1", 7⟩
    else ⟨1, i + 2, strOf "/p", i + 10⟩
  fh_cache_max := 4095
  fh_cache_time := 200
  fh_cache_use := 0
  fh_cache_hit := 0
  st_cache_valid := false
  st_cache := ⟨0, 0, 0, false⟩

/-- A pristine state: empty cache, stat cache invalid. -/
def initState : FhState where
  fh_cache := fun _ => emptyCE
  fh_cache_max := 0
  fh_cache_time := 0
  fh_cache_use := 0
  fh_cache_hit := 0
  st_cache_valid := false
  st_cache := ⟨0, 0, 0, false⟩

/-- A one-entry cache state: slot 0 maps `(1, 30)` to the path `/a/b/c`,
stamped 5. -/
def hitState : FhState where
  fh_cache := fun i => if i = 0 then ⟨1, 30, strOf "/a/b/c", 5⟩ else emptyCE
  fh_cache_max := 0
  fh_cache_time := 11
  fh_cache_use := 0
  fh_cache_hit := 0
  st_cache_valid := false
  st_cache := ⟨0, 0, 0, false⟩

/-- A one-entry cache state whose slot 0 claims `(1, 99)` maps to `/a`,
although `/a` has inode 10 in `demoFs`: the stored relation is stale. -/
def staleState : FhState where
  fh_cache := fun i => if i = 0 then ⟨1, 99, strOf "/a", 5⟩ else emptyCE
  fh_cache_max := 0
  fh_cache_time := 11
  fh_cache_use := 0
  fh_cache_hit := 0
  st_cache_valid := false
  st_cache := ⟨0, 0, 0, false⟩

theorem FsTree.strongInd (P : FsTree → Prop)
    (h : ∀ st es, (∀ e ∈ es, P e.2) → P (.node st es)) : ∀ t, P t := by
  have key : ∀ n (t : FsTree), sizeOf t ≤ n → P t := by
    intro n
    induction n with
    | zero =>
      intro t ht
      cases t with
      | node st es => simp at ht
    | succ n ih =>
      intro t ht
      cases t with
      | node st es =>
        apply h
        intro e he
        apply ih
        have h1 : sizeOf e < sizeOf es := List.sizeOf_lt_of_mem he
        have h2 : sizeOf e.2 < sizeOf e := by
          cases e with
          | mk a b => simp
        simp at ht
        omega
  intro t
  exact key (sizeOf t) t le_rfl

theorem validName_spec (n : CStr) :
    validName n = true ↔
      n ≠ [] ∧ '/' ∉ n ∧ n ≠ strOf "." ∧ n ≠ strOf ".." := by
  simp [validName, List.isEmpty_iff]
  tauto

theorem pathStr_cons (c : CStr) (cs : List CStr) :
    pathStr (c :: cs) = '/' :: (c ++ pathStr cs) := by
  simp [pathStr]

theorem pathStr_append (a b : List CStr) :
    pathStr (a ++ b) = pathStr a ++ pathStr b := by
  simp [pathStr]

theorem pathStr_shape (cs : List CStr) :
    pathStr cs = [] ∨ ∃ r, pathStr cs = '/' :: r := by
  cases cs with
  | nil => exact Or.inl rfl
  | cons c cs => exact Or.inr ⟨_, pathStr_cons c cs⟩

theorem takeDrop_slash (a b : CStr) (ha : '/' ∉ a)
    (hb : b = [] ∨ ∃ r, b = '/' :: r) :
    (a ++ b).takeWhile (fun d => d ≠ '/') = a ∧
    (a ++ b).dropWhile (fun d => d ≠ '/') = b := by
  induction a with
  | nil =>
    rcases hb with h | ⟨r, h⟩ <;> subst h <;>
      simp [List.takeWhile, List.dropWhile]
  | cons x a ih =>
    have hx : x ≠ '/' := by
      intro h
      exact ha (h ▸ List.mem_cons_self x a)
    have ha2 : '/' ∉ a := fun h => ha (List.mem_cons_of_mem _ h)
    have h2 := ih ha2
    simp only [ne_eq, decide_not] at h2
    constructor
    · rw [List.cons_append, List.takeWhile_cons]
      simp [hx, h2.1]
    · rw [List.cons_append, List.dropWhile_cons]
      simp [hx, h2.2]

theorem splitChunks_cons (c : Char) (s : CStr) :
    splitChunks (c :: s) =
      (if c = '/' then [] :: splitChunks s
       else
         match splitChunks s with
         | [] => [[c]]
         | a :: as => (c :: a) :: as) := rfl

theorem splitSlash_slash (s : CStr) : splitSlash ('/' :: s) = splitSlash s := by
  rw [splitSlash, splitChunks_cons, if_pos rfl]
  simp [splitSlash]

theorem splitChunks_append_slash (a b : CStr) (ha : '/' ∉ a) :
    splitChunks (a ++ '/' :: b) = a :: splitChunks b := by
  induction a with
  | nil =>
    rw [List.nil_append, splitChunks_cons, if_pos rfl]
  | cons c a2 ih =>
    have hc : c ≠ '/' := fun h => ha (h ▸ List.mem_cons_self _ _)
    have ha2 : '/' ∉ a2 := fun h => ha (List.mem_cons_of_mem _ h)
    rw [List.cons_append, splitChunks_cons, if_neg hc, ih ha2]

theorem splitChunks_noslash (a : CStr) (ha : '/' ∉ a) (hne : a ≠ []) :
    splitChunks a = [a] := by
  induction a with
  | nil => exact absurd rfl hne
  | cons c a2 ih =>
    have hc : c ≠ '/' := fun h => ha (h ▸ List.mem_cons_self _ _)
    have ha2 : '/' ∉ a2 := fun h => ha (List.mem_cons_of_mem _ h)
    rw [splitChunks_cons, if_neg hc]
    cases a2 with
    | nil => rfl
    | cons d a3 => rw [ih ha2 (by simp)]

theorem splitSlash_pathStr (cs : List CStr)
    (h : ∀ c ∈ cs, validName c = true) : splitSlash (pathStr cs) = cs := by
  induction cs with
  | nil => rfl
  | cons c cs ih =>
    have hc := (validName_spec c).1 (h c (List.mem_cons_self c cs))
    have hce : (!c.isEmpty) = true := by
      cases c
      · exact absurd rfl hc.1
      · rfl
    rw [pathStr_cons, splitSlash_slash]
    have ihr := ih (fun d hd => h d (List.mem_cons_of_mem _ hd))
    cases cs with
    | nil =>
      show splitSlash (c ++ []) = [c]
      rw [List.append_nil, splitSlash, splitChunks_noslash c hc.2.1 hc.1]
      simp [List.filter_cons, hce]
    | cons c2 cs2 =>
      rw [pathStr_cons] at ihr ⊢
      rw [splitSlash, splitChunks_append_slash _ _ hc.2.1]
      rw [splitSlash_slash] at ihr
      have hfold : (splitChunks (c2 ++ pathStr cs2)).filter
          (fun x => !x.isEmpty) = splitSlash (c2 ++ pathStr cs2) := rfl
      simp [List.filter_cons, hce, hfold, ihr]

theorem leadOf_split (cs : List CStr) (h : ∀ c ∈ cs, validName c = true) :
    splitSlash (leadOf cs) = cs := by
  rw [leadOf, splitSlash_slash]
  exact splitSlash_pathStr cs h

theorem leadOf_snoc (cs : List CStr) (n : CStr) :
    leadOf cs ++ '/' :: n = leadOf (cs ++ [n]) := by
  simp [leadOf, pathStr_append, pathStr_cons, pathStr]

theorem pathStr_length_le (a b : List CStr) :
    (pathStr a).length ≤ (pathStr (a ++ b)).length := by
  rw [pathStr_append]
  simp

theorem pathStr_snoc_length (cs : List CStr) (n : CStr) :
    (pathStr (cs ++ [n])).length = (pathStr cs).length + n.length + 1 := by
  rw [pathStr_append, pathStr_cons]
  simp [pathStr]
  omega

theorem treePairs_node (st : FileStat) (es : List (CStr × FsTree)) :
    treePairs (.node st es) = (st.dev, st.ino) :: entriesPairs es := by
  rw [treePairs]

theorem treePairs_eq (t : FsTree) :
    treePairs t = (t.st.dev, t.st.ino) :: entriesPairs t.entries := by
  cases t
  rw [treePairs]
  rfl

theorem entriesPairs_cons (e : CStr × FsTree) (es : List (CStr × FsTree)) :
    entriesPairs (e :: es) = treePairs e.2 ++ entriesPairs es := by
  rw [entriesPairs]

theorem okTree_eq (t : FsTree) :
    okTree t = ((t.st.isDir || t.entries.isEmpty) && okEntries t.entries) := by
  cases t
  rw [okTree]
  rfl

theorem okEntries_cons (e : CStr × FsTree) (es : List (CStr × FsTree)) :
    okEntries (e :: es) =
      (validName e.1 && (es.all fun f => f.1 != e.1) && okTree e.2 &&
        okEntries es) := by
  rw [okEntries]

theorem boundedTree_eq (t : FsTree) :
    boundedTree t = (decide (t.st.dev < 2 ^ 32) && decide (t.st.ino < 2 ^ 32) &&
      boundedEntries t.entries) := by
  cases t
  rw [boundedTree]
  rfl

theorem boundedEntries_cons (e : CStr × FsTree) (es : List (CStr × FsTree)) :
    boundedEntries (e :: es) = (boundedTree e.2 && boundedEntries es) := by
  rw [boundedEntries]

theorem okEntries_mem {es : List (CStr × FsTree)} {e : CStr × FsTree}
    (hok : okEntries es = true) (he : e ∈ es) :
    validName e.1 = true ∧ okTree e.2 = true := by
  induction es with
  | nil => cases he
  | cons f es ih =>
    rw [okEntries_cons] at hok
    simp only [Bool.and_eq_true] at hok
    rcases List.mem_cons.1 he with h | h
    · subst h
      exact ⟨hok.1.1.1, hok.1.2⟩
    · exact ih hok.2 h

theorem find?_of_mem {es : List (CStr × FsTree)} {n : CStr} {x : FsTree}
    (hok : okEntries es = true) (he : (n, x) ∈ es) :
    es.find? (fun e => e.1 == n) = some (n, x) := by
  induction es with
  | nil => cases he
  | cons f es ih =>
    rw [okEntries_cons] at hok
    simp only [Bool.and_eq_true] at hok
    rcases List.mem_cons.1 he with h | h
    · subst h
      simp [List.find?_cons]
    · have hne : f.1 ≠ n := by
        have := hok.1.1.2
        rw [List.all_eq_true] at this
        have h2 := this (n, x) h
        simp at h2
        intro hh
        exact h2 hh.symm
      have hb : (f.1 == n) = false := by simpa using hne
      rw [List.find?_cons, hb]
      exact ih hok.2 h

theorem fsFind_cons (t : FsTree) (c : CStr) (cs : List CStr) :
    fsFind t (c :: cs) =
      match t.entries.find? (fun e => e.1 == c) with
      | none => none
      | some e => fsFind e.2 cs := rfl

theorem fsFind_append (t : FsTree) (a b : List CStr) :
    fsFind t (a ++ b) = (fsFind t a).bind (fun u => fsFind u b) := by
  induction a generalizing t with
  | nil => simp [fsFind]
  | cons c a ih =>
    rw [List.cons_append, fsFind_cons, fsFind_cons]
    cases t.entries.find? (fun e => e.1 == c) with
    | none => rfl
    | some e => exact ih e.2

theorem okEntries_of_okTree {t : FsTree} (hok : okTree t = true) :
    okEntries t.entries = true := by
  rw [okTree_eq] at hok
  simp only [Bool.and_eq_true] at hok
  exact hok.2

theorem okTree_reach {fs t : FsTree} {cs : List CStr}
    (hok : okTree fs = true) (hf : fsFind fs cs = some t) : okTree t = true := by
  induction cs generalizing fs with
  | nil => cases hf; exact hok
  | cons c cs ih =>
    rw [fsFind_cons] at hf
    cases he : fs.entries.find? (fun e => e.1 == c) with
    | none => rw [he] at hf; cases hf
    | some e =>
      rw [he] at hf
      have hmem := List.mem_of_find?_eq_some he
      have h2 := (okEntries_mem (okEntries_of_okTree hok) hmem).2
      exact ih h2 hf

theorem path_names_valid {fs t : FsTree} {cs : List CStr}
    (hok : okTree fs = true) (hf : fsFind fs cs = some t) :
    ∀ c ∈ cs, validName c = true := by
  induction cs generalizing fs with
  | nil => intro c hc; cases hc
  | cons c0 cs ih =>
    rw [fsFind_cons] at hf
    cases he : fs.entries.find? (fun e => e.1 == c0) with
    | none => rw [he] at hf; cases hf
    | some e =>
      rw [he] at hf
      have hmem := List.mem_of_find?_eq_some he
      have hname : e.1 = c0 := by
        have hbeq := List.find?_some he
        simpa using hbeq
      have hok2 := okEntries_of_okTree hok
      intro c hc
      rcases List.mem_cons.1 hc with h | h
      · subst h
        rw [← hname]
        exact (okEntries_mem hok2 hmem).1
      · exact ih ((okEntries_mem hok2 hmem).2) hf c h

theorem isDir_of_entries {t : FsTree} (hok : okTree t = true)
    (hne : t.entries ≠ []) : t.st.isDir = true := by
  rw [okTree_eq] at hok
  simp only [Bool.and_eq_true] at hok
  have h1 := hok.1
  cases hd : t.st.isDir
  · rw [hd] at h1
    simp at h1
    exact absurd h1 hne
  · rfl

theorem fsFind_child {fs q x : FsTree} {qcs : List CStr} {n : CStr}
    (hok : okTree fs = true)
    (hq : fsFind fs qcs = some q) (hx : (n, x) ∈ q.entries) :
    fsFind fs (qcs ++ [n]) = some x := by
  rw [fsFind_append, hq]
  have hok2 := okEntries_of_okTree (okTree_reach hok hq)
  show fsFind q [n] = some x
  rw [fsFind_cons, find?_of_mem hok2 hx]
  rfl

theorem treePairs_sub_mem {es : List (CStr × FsTree)} {e : CStr × FsTree}
    (he : e ∈ es) : (treePairs e.2).Sublist (entriesPairs es) := by
  induction es with
  | nil => cases he
  | cons f es ih =>
    rw [entriesPairs_cons]
    rcases List.mem_cons.1 he with h | h
    · subst h
      exact List.sublist_append_left _ _
    · exact (ih h).trans (List.sublist_append_right _ _)

theorem entriesPairs_sub (t : FsTree) :
    (entriesPairs t.entries).Sublist (treePairs t) := by
  rw [treePairs_eq]
  exact List.sublist_cons_self _ _

theorem treePairs_reach {fs t : FsTree} {cs : List CStr}
    (hf : fsFind fs cs = some t) : (treePairs t).Sublist (treePairs fs) := by
  induction cs generalizing fs with
  | nil => cases hf; exact List.Sublist.refl _
  | cons c cs ih =>
    rw [fsFind_cons] at hf
    cases he : fs.entries.find? (fun e => e.1 == c) with
    | none => rw [he] at hf; cases hf
    | some e =>
      rw [he] at hf
      exact ((ih hf).trans (treePairs_sub_mem (List.mem_of_find?_eq_some he))).trans
        (entriesPairs_sub fs)

theorem pair_mem_self (t : FsTree) : (t.st.dev, t.st.ino) ∈ treePairs t := by
  rw [treePairs_eq]
  exact List.mem_cons_self _ _

theorem pair_mem_of_find {d t : FsTree} {cs : List CStr}
    (hf : fsFind d cs = some t) : (t.st.dev, t.st.ino) ∈ treePairs d :=
  (treePairs_reach hf).subset (pair_mem_self t)

theorem mem_entriesPairs_of_find {d t : FsTree} {cs : List CStr}
    (hf : fsFind d cs = some t) (hne : cs ≠ []) :
    (t.st.dev, t.st.ino) ∈ entriesPairs d.entries := by
  cases cs with
  | nil => exact absurd rfl hne
  | cons c cs =>
    rw [fsFind_cons] at hf
    cases he : d.entries.find? (fun e => e.1 == c) with
    | none => rw [he] at hf; cases hf
    | some e =>
      rw [he] at hf
      exact (treePairs_sub_mem (List.mem_of_find?_eq_some he)).subset
        (pair_mem_of_find hf)

theorem entriesPairs_disjoint {es : List (CStr × FsTree)}
    (hnd : (entriesPairs es).Nodup) {a b : CStr × FsTree} {p : Nat × Nat}
    (ha : a ∈ es) (hb : b ∈ es) (hne : a.1 ≠ b.1)
    (hpa : p ∈ treePairs a.2) : p ∉ treePairs b.2 := by
  induction es with
  | nil => cases ha
  | cons f es ih =>
    rw [entriesPairs_cons] at hnd
    have hparts := List.nodup_append.1 hnd
    rcases List.mem_cons.1 ha with h1 | h1 <;> rcases List.mem_cons.1 hb with h2 | h2
    · subst h1; subst h2
      exact absurd rfl hne
    · subst h1
      intro hpb
      exact hparts.2.2 hpa ((treePairs_sub_mem h2).subset hpb)
    · subst h2
      intro hpb
      exact hparts.2.2 hpb ((treePairs_sub_mem h1).subset hpa)
    · exact ih hparts.2.1 h1 h2

theorem entriesPairs_nil : entriesPairs [] = [] := by
  rw [entriesPairs]

theorem mem_entriesPairs {es : List (CStr × FsTree)} {p : Nat × Nat}
    (hp : p ∈ entriesPairs es) : ∃ e ∈ es, p ∈ treePairs e.2 := by
  induction es with
  | nil => rw [entriesPairs_nil] at hp; cases hp
  | cons f es ih =>
    rw [entriesPairs_cons] at hp
    rcases List.mem_append.1 hp with h | h
    · exact ⟨f, List.mem_cons_self _ _, h⟩
    · obtain ⟨e, he, hpe⟩ := ih h
      exact ⟨e, List.mem_cons_of_mem _ he, hpe⟩

theorem boundedEntries_mem {es : List (CStr × FsTree)} {e : CStr × FsTree}
    (hb : boundedEntries es = true) (he : e ∈ es) : boundedTree e.2 = true := by
  induction es with
  | nil => cases he
  | cons f es ih =>
    rw [boundedEntries_cons] at hb
    simp only [Bool.and_eq_true] at hb
    rcases List.mem_cons.1 he with h | h
    · subst h; exact hb.1
    · exact ih hb.2 h

theorem bounded_pair :
    ∀ t : FsTree, boundedTree t = true →
      ∀ p : Nat × Nat, p ∈ treePairs t → p.1 < 2 ^ 32 ∧ p.2 < 2 ^ 32 := by
  intro t
  induction t using FsTree.strongInd with
  | h st es ih =>
    intro hb p hp
    rw [boundedTree_eq] at hb
    simp only [Bool.and_eq_true, decide_eq_true_eq] at hb
    rw [treePairs_node] at hp
    rcases List.mem_cons.1 hp with h | h
    · subst h
      exact ⟨hb.1.1, hb.1.2⟩
    · obtain ⟨e, he, hpe⟩ := mem_entriesPairs h
      exact ih e he (boundedEntries_mem hb.2 he) p hpe

theorem bounds_of_reach {fs t : FsTree} {cs : List CStr}
    (hb : boundedTree fs = true) (hf : fsFind fs cs = some t) :
    t.st.dev < 2 ^ 32 ∧ t.st.ino < 2 ^ 32 :=
  bounded_pair fs hb _ ((treePairs_reach hf).subset (pair_mem_self t))

theorem pathStr_eq_nil {cs : List CStr} : pathStr cs = [] ↔ cs = [] := by
  cases cs with
  | nil => simp [pathStr]
  | cons c cs =>
    rw [pathStr_cons]
    simp

theorem trailDown_length {d t : FsTree} {cs : List CStr}
    (hf : fsFind d cs = some t) : (trailDown d cs).length = cs.length := by
  induction cs generalizing d with
  | nil => rfl
  | cons c cs ih =>
    rw [fsFind_cons] at hf
    cases he : d.entries.find? (fun e => e.1 == c) with
    | none => rw [he] at hf; cases hf
    | some e =>
      rw [he] at hf
      rw [trailDown, he]
      simp [ih hf]

theorem trailDown_nil (t : FsTree) : trailDown t [] = [] := by
  rw [trailDown.eq_def]

theorem trailDown_cons (t : FsTree) (c : CStr) (cs : List CStr) :
    trailDown t (c :: cs) =
      match t.entries.find? (fun e => e.1 == c) with
      | none => []
      | some e => fhHash e.2.st.ino :: trailDown e.2 cs := by
  rw [trailDown.eq_def]

theorem trailDown_cons_found {t : FsTree} {c : CStr} {cs : List CStr}
    {e : CStr × FsTree} (he : t.entries.find? (fun x => x.1 == c) = some e) :
    trailDown t (c :: cs) = fhHash e.2.st.ino :: trailDown e.2 cs := by
  rw [trailDown_cons, he]

theorem compWalkF_ok (fs : FsTree) :
    ∀ (rem pcs : List CStr) (d t : FsTree) (pos fuel : Nat),
      rem ≠ [] →
      okTree fs = true →
      (∀ c ∈ pcs ++ rem, validName c = true) →
      fsFind fs pcs = some d →
      fsFind d rem = some t →
      pos + rem.length ≤ FH_MAXLEN →
      (pathStr rem).tail.length < fuel →
      compWalkF fs fuel (pathStr pcs ++ ['/']) (pathStr rem).tail pos =
        some (trailDown d rem) := by
  intro rem
  induction rem with
  | nil =>
    intro pcs d t pos fuel h
    exact absurd rfl h
  | cons c cs ih =>
    intro pcs d t pos fuel _ hok hnames hpcs hfind hbound hfuel
    cases fuel with
    | zero => exact absurd hfuel (Nat.not_lt_zero _)
    | succ k =>
    have hc : validName c = true := hnames c (by simp)
    have hcspec := (validName_spec c).1 hc
    have htail : (pathStr (c :: cs)).tail = c ++ pathStr cs := by
      rw [pathStr_cons]
      rfl
    have htd := takeDrop_slash c (pathStr cs) hcspec.2.1 (pathStr_shape cs)
    rw [fsFind_cons] at hfind
    cases he : d.entries.find? (fun e => e.1 == c) with
    | none => rw [he] at hfind; cases hfind
    | some e =>
    rw [he] at hfind
    have hcur : (pathStr pcs ++ ['/']) ++ c = pathStr (pcs ++ [c]) := by
      rw [pathStr_append, pathStr_cons]
      simp [pathStr]
    have hfindc : fsFind fs (pcs ++ [c]) = some e.2 := by
      rw [fsFind_append, hpcs]
      show fsFind d [c] = some e.2
      rw [fsFind_cons, he]
      rfl
    have hnames2 : ∀ a ∈ pcs ++ [c], validName a = true := by
      intro a ha
      apply hnames
      rcases List.mem_append.1 ha with h | h
      · exact List.mem_append.2 (Or.inl h)
      · simp at h
        subst h
        simp
    have hlstat : lstatP fs ((pathStr pcs ++ ['/']) ++ c) = some e.2.st := by
      rw [hcur, lstatP, splitSlash_pathStr _ hnames2, hfindc]
      rfl
    have hnames3 : ∀ a ∈ (pcs ++ [c]) ++ cs, validName a = true := by
      intro a ha
      apply hnames
      rcases List.mem_append.1 ha with h | h
      · rcases List.mem_append.1 h with h2 | h2
        · exact List.mem_append.2 (Or.inl h2)
        · simp at h2
          subst h2
          simp
      · exact List.mem_append.2 (Or.inr (List.mem_cons_of_mem _ h))
    rw [htail] at hfuel ⊢
    rw [compWalkF]
    simp only [htd.1, hlstat]
    cases cs with
    | nil =>
      split
      · rw [trailDown_cons_found he]
        simp [trailDown_nil]
      · next hd rest2 heq =>
        have heq2 : pathStr ([] : List CStr) = hd :: rest2 :=
          htd.2.symm.trans heq
        simp [pathStr] at heq2
    | cons c3 cs3 =>
      split
      · next heq =>
        have heq2 : pathStr (c3 :: cs3) = [] := htd.2.symm.trans heq
        rw [pathStr_cons] at heq2
        simp at heq2
      · next hd rest2 heq =>
        have heq2 : pathStr (c3 :: cs3) = hd :: rest2 := htd.2.symm.trans heq
        rw [pathStr_cons] at heq2
        injection heq2 with h1 h2
        subst h2
        have hpos : pos + 1 < FH_MAXLEN := by
          simp only [List.length_cons] at hbound
          simp [FH_MAXLEN] at hbound ⊢
          omega
        rw [if_pos hpos]
        have htl2 : c3 ++ pathStr cs3 = (pathStr (c3 :: cs3)).tail := by
          rw [pathStr_cons]
          rfl
        have harg : ((pathStr pcs ++ ['/']) ++ c) ++ ['/'] =
            pathStr (pcs ++ [c]) ++ ['/'] := by
          rw [hcur]
        have hfk : (pathStr (c3 :: cs3)).tail.length < k := by
          rw [← htl2]
          have hx : (pathStr (c3 :: cs3)).length =
              1 + (c3 ++ pathStr cs3).length := by
            rw [pathStr_cons]
            simp
            omega
          simp only [List.length_append] at hfuel
          omega
        rw [htl2, harg, ih (pcs ++ [c]) e.2 t (pos + 1) k (by simp) hok hnames3
          hfindc hfind
          (by
            simp only [List.length_cons] at hbound ⊢
            omega)
          hfk]
        rw [trailDown_cons_found he]
        simp

theorem compWalk_ok (fs : FsTree) :
    ∀ (rem pcs : List CStr) (d t : FsTree) (pos : Nat),
      rem ≠ [] →
      okTree fs = true →
      (∀ c ∈ pcs ++ rem, validName c = true) →
      fsFind fs pcs = some d →
      fsFind d rem = some t →
      pos + rem.length ≤ FH_MAXLEN →
      compWalk fs (pathStr pcs ++ ['/']) (pathStr rem).tail pos =
        some (trailDown d rem) := by
  intro rem pcs d t pos h1 h2 h3 h4 h5 h6
  rw [compWalk]
  exact compWalkF_ok fs rem pcs d t pos _ h1 h2 h3 h4 h5 h6 (Nat.lt_succ_self _)

theorem fh_comp_raw_ok {fs t : FsTree} {comps : List CStr} (junk : List Nat)
    (hwf : Wf fs) (hne : comps ≠ [])
    (hfind : fsFind fs comps = some t) (hlen : comps.length ≤ FH_MAXLEN) :
    fh_comp_raw fs (pathStr comps) false junk =
      ⟨t.st.dev, t.st.ino, get_gen t.st, trailDown fs comps⟩ := by
  have hok := hwf.1
  have hnames := path_names_valid hok hfind
  have hlstat : lstatP fs (pathStr comps) = some t.st := by
    rw [lstatP, splitSlash_pathStr _ hnames, hfind]
    rfl
  obtain ⟨c, cs, rfl⟩ : ∃ c cs, comps = c :: cs := by
    cases comps
    · exact absurd rfl hne
    · exact ⟨_, _, rfl⟩
  have hvc := (validName_spec c).1 (hnames c (by simp))
  have hnr : pathStr (c :: cs) ≠ ['/'] := by
    rw [pathStr_cons]
    intro h
    injection h with h1 h2
    have h3 : c = [] ∧ pathStr cs = [] := by simpa using h2
    exact hvc.1 h3.1
  have hcw : compWalk fs ['/'] (pathStr (c :: cs)).tail 0 =
      some (trailDown fs (c :: cs)) := by
    have h0 : pathStr ([] : List CStr) ++ ['/'] = ['/'] := rfl
    rw [← h0]
    exact compWalk_ok fs (c :: cs) [] fs t 0 (by simp) hok
      (by simpa using hnames) rfl hfind (by simpa using hlen)
  have hbnd := bounds_of_reach hwf.2.2 hfind
  simp only [fh_comp_raw, hlstat, Bool.false_and, Bool.not_eq_true,
    if_neg hnr, if_false]
  rw [hcw]
  simp [Nat.mod_eq_of_lt hbnd.1, Nat.mod_eq_of_lt hbnd.2]
  simpa using hbnd

theorem fhScan_nil (fs : FsTree) (dev ino h0 : Nat)
    (descend : CStr → Option (CStr × FileStat)) (lead : CStr) :
    fhScan fs dev ino h0 descend lead [] = none := rfl

theorem fhScan_cons (fs : FsTree) (dev ino h0 : Nat)
    (descend : CStr → Option (CStr × FileStat)) (lead : CStr)
    (name : CStr) (x : FsTree) (es : List (CStr × FsTree)) :
    fhScan fs dev ino h0 descend lead ((name, x) :: es) =
      if lead.length + name.length + 1 < NFS_MAXPATHLEN then
        if ((lstatP fs (lead ++ '/' :: name)).getD ⟨0, 0, 0, false⟩).dev = dev ∧
            ((lstatP fs (lead ++ '/' :: name)).getD ⟨0, 0, 0, false⟩).ino = ino
        then
          some (lead.tail ++ '/' :: name,
            (lstatP fs (lead ++ '/' :: name)).getD ⟨0, 0, 0, false⟩)
        else
          match
            (if name ≠ strOf "." ∧ name ≠ strOf ".." ∧
                fhHash
                  ((lstatP fs (lead ++ '/' :: name)).getD
                    ⟨0, 0, 0, false⟩).ino = h0 then
              descend (lead ++ '/' :: name)
            else none) with
          | some r => some r
          | none => fhScan fs dev ino h0 descend lead es
      else fhScan fs dev ino h0 descend lead es := rfl

theorem fhRec_nil (fs : FsTree) (dev ino : Nat) (lead : CStr) :
    fhRec fs dev ino [] lead = none := rfl

theorem fhRec_cons (fs : FsTree) (dev ino h0 : Nat) (tr : List Nat)
    (lead : CStr) :
    fhRec fs dev ino (h0 :: tr) lead =
      match opendirP fs lead with
      | none => none
      | some es =>
        fhScan fs dev ino h0 (fun obj => fhRec fs dev ino tr obj) lead es := rfl

theorem opendir_reach {fs q : FsTree} {qcs : List CStr}
    (hok : okTree fs = true) (hq : fsFind fs qcs = some q)
    (hdir : q.st.isDir = true) :
    opendirP fs (leadOf qcs) = some q.entries := by
  rw [opendirP, leadOf_split qcs (path_names_valid hok hq), hq]
  simp [hdir]

theorem valid_snoc_names {fs q : FsTree} {qcs : List CStr} {n : CStr}
    (hok : okTree fs = true) (hq : fsFind fs qcs = some q)
    (hn : validName n = true) :
    ∀ c ∈ qcs ++ [n], validName c = true := by
  intro c hc
  rcases List.mem_append.1 hc with h | h
  · exact path_names_valid hok hq c h
  · simp at h
    subst h
    exact hn

theorem lstat_child {fs q x : FsTree} {qcs : List CStr} {n : CStr}
    (hok : okTree fs = true) (hq : fsFind fs qcs = some q)
    (hx : (n, x) ∈ q.entries) :
    lstatP fs (leadOf qcs ++ '/' :: n) = some x.st := by
  have hn := (okEntries_mem (okEntries_of_okTree (okTree_reach hok hq)) hx).1
  rw [leadOf_snoc, lstatP, leadOf_split _ (valid_snoc_names hok hq hn),
    fsFind_child hok hq hx]
  rfl

theorem fhRec_cons_dir {fs : FsTree} {lead : CStr} {es : List (CStr × FsTree)}
    (ho : opendirP fs lead = some es) (dev ino h0 : Nat) (tr : List Nat) :
    fhRec fs dev ino (h0 :: tr) lead =
      fhScan fs dev ino h0 (fun obj => fhRec fs dev ino tr obj) lead es := by
  rw [fhRec_cons, ho]

theorem entries_name_unique {l : List (CStr × FsTree)} {n : CStr} {x y : FsTree}
    (hok : okEntries l = true) (hx : (n, x) ∈ l) (hy : (n, y) ∈ l) : x = y := by
  have h1 := find?_of_mem hok hx
  have h2 := find?_of_mem hok hy
  rw [h1] at h2
  injection h2 with h3
  injection h3

theorem fhScan_sound (fs : FsTree) (hok : okTree fs = true) (dev ino h0 : Nat)
    (descend : CStr → Option (CStr × FileStat))
    {qcs : List CStr} {q : FsTree}
    (hq : fsFind fs qcs = some q)
    (hdesc : ∀ n x r, (n, x) ∈ q.entries →
      descend (leadOf qcs ++ '/' :: n) = some r → (dev, ino) ∈ treePairs x) :
    ∀ (es : List (CStr × FsTree)) (r : CStr × FileStat),
      (∀ e ∈ es, e ∈ q.entries) →
      fhScan fs dev ino h0 descend (leadOf qcs) es = some r →
      (dev, ino) ∈ entriesPairs q.entries := by
  intro es
  induction es with
  | nil =>
    intro r _ hgo
    rw [fhScan_nil] at hgo
    cases hgo
  | cons e es ihe =>
    obtain ⟨n, x⟩ := e
    intro r hsub hgo
    have hmem := hsub (n, x) (by simp)
    have hsub2 : ∀ e ∈ es, e ∈ q.entries :=
      fun e he => hsub e (List.mem_cons_of_mem _ he)
    rw [fhScan_cons] at hgo
    by_cases hg : (leadOf qcs).length + n.length + 1 < NFS_MAXPATHLEN
    case neg =>
      rw [if_neg hg] at hgo
      exact ihe r hsub2 hgo
    rw [if_pos hg, lstat_child hok hq hmem] at hgo
    simp only [Option.getD_some] at hgo
    by_cases hm : x.st.dev = dev ∧ x.st.ino = ino
    · have hp : (dev, ino) ∈ treePairs x := by
        rw [← hm.1, ← hm.2]
        exact pair_mem_self x
      exact (treePairs_sub_mem hmem).subset hp
    · rw [if_neg hm] at hgo
      by_cases hdot : n ≠ strOf "." ∧ n ≠ strOf ".." ∧ fhHash x.st.ino = h0
      · rw [if_pos hdot] at hgo
        cases hdes : descend (leadOf qcs ++ '/' :: n) with
        | none =>
          rw [hdes] at hgo
          exact ihe r hsub2 hgo
        | some r2 =>
          exact (treePairs_sub_mem hmem).subset (hdesc n x r2 hmem hdes)
      · rw [if_neg hdot] at hgo
        exact ihe r hsub2 hgo

theorem fhRec_sound (fs : FsTree) (hok : okTree fs = true) (dev ino : Nat) :
    ∀ (trail : List Nat) (qcs : List CStr) (q : FsTree) (r : CStr × FileStat),
      fsFind fs qcs = some q →
      fhRec fs dev ino trail (leadOf qcs) = some r →
      (dev, ino) ∈ entriesPairs q.entries := by
  intro trail
  induction trail with
  | nil =>
    intro qcs q r _ hrec
    rw [fhRec_nil] at hrec
    cases hrec
  | cons h0 tr ih =>
    intro qcs q r hq hrec
    rw [fhRec_cons] at hrec
    cases ho : opendirP fs (leadOf qcs) with
    | none =>
      rw [ho] at hrec
      cases hrec
    | some es =>
      rw [ho] at hrec
      have hes : es = q.entries := by
        rw [opendirP, leadOf_split qcs (path_names_valid hok hq), hq] at ho
        by_cases hd : q.st.isDir = true
        · simp [hd] at ho
          exact ho.symm
        · simp [hd] at ho
      subst hes
      refine fhScan_sound fs hok dev ino h0 _ hq ?_ q.entries r
        (fun e he => he) hrec
      intro n x r2 hmem hdes
      rw [leadOf_snoc] at hdes
      exact (entriesPairs_sub x).subset
        (ih (qcs ++ [n]) x r2 (fsFind_child hok hq hmem) hdes)

theorem fhScan_complete (fs : FsTree) (hwf : Wf fs)
    {pcs : List CStr} {d : FsTree} (hpcs : fsFind fs pcs = some d)
    (c : CStr) (sub t : FsTree) (cs : List CStr)
    (hcmem : (c, sub) ∈ d.entries)
    (hsubfind : fsFind sub cs = some t)
    (hblen : (pathStr (pcs ++ c :: cs)).length + 1 < NFS_MAXPATHLEN)
    (descend : CStr → Option (CStr × FileStat))
    (hdtrue : cs ≠ [] → descend (leadOf (pcs ++ [c])) =
      some (pathStr (pcs ++ c :: cs), t.st))
    (hdsound : ∀ n x r, (n, x) ∈ d.entries →
      descend (leadOf pcs ++ '/' :: n) = some r →
      (t.st.dev, t.st.ino) ∈ treePairs x) :
    ∀ es, (∀ e ∈ es, e ∈ d.entries) → (c, sub) ∈ es →
      fhScan fs t.st.dev t.st.ino (fhHash sub.st.ino) descend (leadOf pcs) es =
        some (pathStr (pcs ++ c :: cs), t.st) := by
  have hok := hwf.1
  have hokd : okTree d = true := okTree_reach hok hpcs
  have hoke : okEntries d.entries = true := okEntries_of_okTree hokd
  have hvc : validName c = true := (okEntries_mem hoke hcmem).1
  have hvcs := (validName_spec c).1 hvc
  have hndd : (treePairs d).Nodup := (treePairs_reach hpcs).nodup hwf.2.1
  have hnde : (entriesPairs d.entries).Nodup := by
    rw [treePairs_eq] at hndd
    exact hndd.of_cons
  have htp : (t.st.dev, t.st.ino) ∈ treePairs sub := pair_mem_of_find hsubfind
  have h4 : (leadOf pcs).length = (pathStr pcs).length + 1 := by
    simp [leadOf]
  have h2 := pathStr_snoc_length pcs c
  have h3 : (pathStr (pcs ++ [c])).length ≤ (pathStr (pcs ++ c :: cs)).length := by
    have h1 : pcs ++ c :: cs = (pcs ++ [c]) ++ cs := by
      rw [List.append_assoc]
      rfl
    rw [h1]
    exact pathStr_length_le _ _
  have hg : (leadOf pcs).length + c.length + 1 < NFS_MAXPATHLEN := by
    rw [h4]
    omega
  have hres : (leadOf pcs).tail ++ '/' :: c = pathStr (pcs ++ [c]) := by
    rw [pathStr_append, pathStr_cons]
    simp [leadOf, pathStr]
  intro es
  induction es with
  | nil =>
    intro _ hcin
    cases hcin
  | cons e es ihe =>
    obtain ⟨n, x⟩ := e
    intro hsub hcin
    have hnx : (n, x) ∈ d.entries := hsub (n, x) (by simp)
    have hsub2 : ∀ e ∈ es, e ∈ d.entries :=
      fun e he => hsub e (List.mem_cons_of_mem _ he)
    by_cases hnc : n = c
    · rw [hnc]
      rw [fhScan_cons, if_pos hg, lstat_child hok hpcs hcmem]
      simp only [Option.getD_some]
      by_cases hcs : cs = []
      · subst hcs
        have hts : sub = t := Option.some.inj hsubfind
        subst hts
        rw [if_pos ⟨rfl, rfl⟩]
        rw [hres]
      · have hne2 : ¬(sub.st.dev = t.st.dev ∧ sub.st.ino = t.st.ino) := by
          intro hcon
          have hstrict : (t.st.dev, t.st.ino) ∈ entriesPairs sub.entries :=
            mem_entriesPairs_of_find hsubfind hcs
          have hndsub : (treePairs sub).Nodup :=
            (((treePairs_sub_mem hcmem).trans (entriesPairs_sub d)).trans
              (treePairs_reach hpcs)).nodup hwf.2.1
          rw [treePairs_eq] at hndsub
          apply (List.nodup_cons.1 hndsub).1
          rw [hcon.1, hcon.2]
          exact hstrict
        rw [if_neg hne2]
        have hcond : c ≠ strOf "." ∧ c ≠ strOf ".." ∧ True :=
          ⟨hvcs.2.2.1, hvcs.2.2.2, trivial⟩
        rw [if_pos hcond, leadOf_snoc, hdtrue hcs]
    · have hcin2 : (c, sub) ∈ es := by
        rcases List.mem_cons.1 hcin with h | h
        · injection h with h1 h2
          exact absurd h1.symm hnc
        · exact h
      rw [fhScan_cons]
      by_cases hgn : (leadOf pcs).length + n.length + 1 < NFS_MAXPATHLEN
      case neg =>
        rw [if_neg hgn]
        exact ihe hsub2 hcin2
      rw [if_pos hgn, lstat_child hok hpcs hnx]
      simp only [Option.getD_some]
      have hnotx : (t.st.dev, t.st.ino) ∉ treePairs x :=
        entriesPairs_disjoint hnde hcmem hnx (fun h => hnc h.symm) htp
      have hm : ¬(x.st.dev = t.st.dev ∧ x.st.ino = t.st.ino) := by
        intro hcon
        apply hnotx
        rw [← hcon.1, ← hcon.2]
        exact pair_mem_self x
      rw [if_neg hm]
      by_cases hdot : n ≠ strOf "." ∧ n ≠ strOf ".." ∧
        fhHash x.st.ino = fhHash sub.st.ino
      · rw [if_pos hdot]
        cases hdes : descend (leadOf pcs ++ '/' :: n) with
        | none => exact ihe hsub2 hcin2
        | some r2 =>
          exact absurd (hdsound n x r2 hnx hdes) hnotx
      · rw [if_neg hdot]
        exact ihe hsub2 hcin2

theorem fhRec_complete (fs : FsTree) (hwf : Wf fs) :
    ∀ (rem pcs : List CStr) (d t : FsTree),
      rem ≠ [] →
      fsFind fs pcs = some d →
      fsFind d rem = some t →
      (pathStr (pcs ++ rem)).length + 1 < NFS_MAXPATHLEN →
      fhRec fs t.st.dev t.st.ino (trailDown d rem) (leadOf pcs) =
        some (pathStr (pcs ++ rem), t.st) := by
  intro rem
  induction rem with
  | nil =>
    intro pcs d t h
    exact absurd rfl h
  | cons c cs ih =>
    intro pcs d t _ hpcs hfind hblen
    have hok := hwf.1
    rw [fsFind_cons] at hfind
    cases he : d.entries.find? (fun e => e.1 == c) with
    | none =>
      rw [he] at hfind
      cases hfind
    | some e =>
      rw [he] at hfind
      have hceq : e.1 = c := by simpa using List.find?_some he
      have hemem : (c, e.2) ∈ d.entries := by
        have hmem := List.mem_of_find?_eq_some he
        have h2 : (c, e.2) = e := by
          rw [← hceq]
        rw [h2]
        exact hmem
      have hdir : d.st.isDir = true := by
        apply isDir_of_entries (okTree_reach hok hpcs)
        intro h0
        rw [h0] at hemem
        cases hemem
      rw [trailDown_cons_found he, fhRec_cons_dir (opendir_reach hok hpcs hdir)]
      have hfc : fsFind fs (pcs ++ [c]) = some e.2 := fsFind_child hok hpcs hemem
      refine fhScan_complete fs hwf hpcs c e.2 t cs hemem hfind hblen
        (fun obj => fhRec fs t.st.dev t.st.ino (trailDown e.2 cs) obj) ?_ ?_
        d.entries (fun e he => he) hemem
      · intro hcs
        have h2 : pathStr ((pcs ++ [c]) ++ cs) = pathStr (pcs ++ c :: cs) := by
          rw [List.append_assoc]
          rfl
        have h3 := ih (pcs ++ [c]) e.2 t hcs hfc hfind
          (by rw [h2]; exact hblen)
        rw [h2] at h3
        exact h3
      · intro n x r hnx hdes
        rw [leadOf_snoc] at hdes
        exact (entriesPairs_sub x).subset
          (fhRec_sound fs hok t.st.dev t.st.ino (trailDown e.2 cs)
            (pcs ++ [n]) x r (fsFind_child hok hpcs hnx) hdes)

theorem roundtrip_main {fs t : FsTree} {comps : List CStr} (junk : List Nat)
    (hwf : Wf fs) (hne : comps ≠ [])
    (hfind : fsFind fs comps = some t) (hdepth : comps.length ≤ FH_MAXLEN)
    (hblen : (pathStr comps).length + 1 < NFS_MAXPATHLEN) :
    fh_decomp_raw fs (fh_comp_raw fs (pathStr comps) false junk) =
      some (pathStr comps) := by
  rw [fh_comp_raw_ok junk hwf hne hfind hdepth]
  have hrec := fhRec_complete fs hwf comps [] fs t hne rfl hfind hblen
  have h1 : ([] : List CStr) ++ comps = comps := rfl
  rw [h1] at hrec
  have h2 : leadOf [] = ['/'] := rfl
  rw [h2] at hrec
  have hlz : ¬((trailDown fs comps).length = 0) := by
    rw [trailDown_length hfind]
    simpa using hne
  rw [fh_decomp_raw, fh_decomp_rawS]
  simp only [UFH.len]
  rw [if_neg hlz]
  simp only [hrec]

theorem getD_append_length (l : List Nat) (a : Nat) :
    (l ++ [a]).getD l.length 0 = a := by
  induction l with
  | nil => rfl
  | cons x l ih => simp

/-- C3: extending a valid parent handle below `FH_MAXLEN` with `(d, i, g)`
produces the parent's trail plus `FH_HASH(i)` at position `len`, the new
object ids, and `len + 1`; a parent already at `FH_MAXLEN` makes both
`fh_extend` and `fh_extend_post` fail. -/
theorem C3_extend (H : UFH) (d i g : Nat) (_hv : fh_valid H = true) :
    (H.len < FH_MAXLEN →
      fh_extend H d i g = some ⟨d, i, g, H.inos ++ [fhHash i]⟩ ∧
      (⟨d, i, g, H.inos ++ [fhHash i]⟩ : UFH).len = H.len + 1 ∧
      (H.inos ++ [fhHash i]).take H.len = H.inos ∧
      (H.inos ++ [fhHash i]).getD H.len 0 = fhHash i) ∧
    (H.len = FH_MAXLEN →
      fh_extend H d i g = none ∧ fh_extend_post H d i g = none) := by
  constructor
  · intro hlt
    refine ⟨?_, ?_, ?_, ?_⟩
    · rw [fh_extend, if_neg (by omega)]
    · simp [UFH.len]
    · exact List.take_left _ _
    · exact getD_append_length _ _
  · intro heq
    have h1 : fh_extend H d i g = none := by
      rw [fh_extend, if_pos heq]
    exact ⟨h1, by rw [fh_extend_post, h1]⟩

theorem C3_extend_witness :
    (fh_extend ⟨1, 2, 3, [4]⟩ 7 8 9 = some ⟨7, 8, 9, [4] ++ [fhHash 8]⟩ ∧
      (⟨7, 8, 9, [4] ++ [fhHash 8]⟩ : UFH).len = UFH.len ⟨1, 2, 3, [4]⟩ + 1 ∧
      ([4] ++ [fhHash 8]).take (UFH.len ⟨1, 2, 3, [4]⟩) = [4] ∧
      ([4] ++ [fhHash 8]).getD (UFH.len ⟨1, 2, 3, [4]⟩) 0 = fhHash 8) ∧
    (fh_extend ⟨1, 2, 3, List.replicate 64 0⟩ 7 8 9 = none ∧
      fh_extend_post ⟨1, 2, 3, List.replicate 64 0⟩ 7 8 9 = none) :=
  ⟨(C3_extend ⟨1, 2, 3, [4]⟩ 7 8 9 (by decide)).1 (by decide),
   (C3_extend ⟨1, 2, 3, List.replicate 64 0⟩ 7 8 9 (by decide)).2 (by decide)⟩

/-- C4: wire validation rejects a buffer exactly when it is shorter than
the 13-byte header or its length differs from 13 plus the `len` byte at
offset 12; nothing else (a zero `dev` included) is rejected here. -/
theorem C4_nfh_valid (b : List Nat) :
    nfh_valid b = false ↔ (b.length < 13 ∨ b.length ≠ 13 + b.getD 12 0) := by
  rw [nfh_valid, FH_MINLEN]
  by_cases h1 : b.length < 13
  · rw [if_pos h1]
    exact ⟨fun _ => Or.inl h1, fun _ => rfl⟩
  · rw [if_neg h1]
    by_cases h2 : b.length ≠ b.getD 12 0 + 13
    · rw [if_pos h2]
      exact ⟨fun _ => Or.inr (by omega), fun _ => rfl⟩
    · rw [if_neg h2]
      constructor
      · intro hcon
        exact Bool.noConfusion hcon
      · intro hor
        exfalso
        rcases hor with h | h
        · exact h1 h
        · omega

/-- C7 counterexample: a handle with `dev = 0` but `ino = 5` is classified
invalid by `fh_valid`, yet it does not satisfy `dev = 0 ∧ ino = 0`, so the
claimed biconditional fails on it. -/
theorem C7_counterexample :
    ¬((fh_valid ⟨0, 5, 0, []⟩ = false) ↔
      (UFH.dev ⟨0, 5, 0, []⟩ = 0 ∧ UFH.ino ⟨0, 5, 0, []⟩ = 0)) := by
  decide

/-- C7 (amended): `fh_valid` returns false exactly when the device or the
inode (either one) is zero. -/
theorem C7_fh_valid (h : UFH) :
    fh_valid h = false ↔ (h.dev = 0 ∨ h.ino = 0) := by
  rw [fh_valid]
  simp only [Bool.and_eq_false_iff, bne_eq_false_iff_eq]

/-- C6: encoding the root path returns before ever assigning `fh.len`, so
the handle's `len` is the indeterminate stack value (here the one-byte
residue `[7]`, giving `len = 1`, not 0) while still passing `fh_valid`;
the decode direction does hold: a handle whose `len` is 0 decodes to `/`
without any scan. -/
theorem C6_root_junk :
    (fh_comp_raw demoFs (strOf "/") false [7]).len = 1 ∧
    fh_valid (fh_comp_raw demoFs (strOf "/") false [7]) = true ∧
    fh_decomp_raw demoFs ⟨1, 2, 0, []⟩ = some (strOf "/") := by
  decide

theorem fh_cache_add_st (s : FhState) (dev ino : Nat) (p : CStr) :
    (fh_cache_add s dev ino p).st_cache_valid = s.st_cache_valid ∧
    (fh_cache_add s dev ino p).st_cache = s.st_cache := by
  rw [fh_cache_add]
  cases hm : fh_cache_index s dev ino with
  | some i => simp [fh_cache_inval, fh_cache_next]
  | none =>
    rw [fh_cache_lru]
    by_cases hc : s.fh_cache_max < CACHE_ENTRIES - 1
    · rw [if_pos hc]
      exact ⟨rfl, rfl⟩
    · rw [if_neg hc]
      exact ⟨rfl, rfl⟩

/-- C8 (amended): `fh_comp` never touches the attribute cache; both on a
valid and on an invalid result the `st_cache_valid` flag and the stored
stat are exactly what they were before the call (neither `fh_comp_raw` nor
`fh_cache_add` writes them). -/
theorem C8_stcache (fs : FsTree) (s : FhState) (path : CStr)
    (need_dir : Bool) (junk : List Nat) :
    (fh_comp fs s path need_dir junk).2.st_cache_valid = s.st_cache_valid ∧
    (fh_comp fs s path need_dir junk).2.st_cache = s.st_cache := by
  rw [fh_comp]
  by_cases h : fh_valid (fh_comp_raw fs path need_dir junk) = true
  · simp only [h, if_true]
    exact fh_cache_add_st s _ _ path
  · simp [h]

/-- C8 counterexample: from an invalid attribute cache, `fh_comp` of an
existing path returns a valid handle while `st_cache_valid` stays false —
the attribute-cache slot is not populated for the encoded path, contrary
to the claim. -/
theorem C8_counterexample :
    fh_valid (fh_comp demoFs initState (strOf "/a") false []).1 = true ∧
    (fh_comp demoFs initState (strOf "/a") false []).2.st_cache_valid =
      false := by
  decide

/-- C1 counterexample: for the existing path `/` (depth 0, within
`MAX_DEPTH`), the encoder leaves the handle's `len`/`inos` as stack junk
(modelled: a one-byte residue `[5]`), and decoding that handle scans for
the root's `(dev, ino)` below the root and fails, so
`fh_decomp_raw (fh_comp_raw "/") ≠ "/"`. -/
theorem C1_counterexample :
    fh_decomp_raw demoFs (fh_comp_raw demoFs (strOf "/") false [5]) ≠
      some (strOf "/") := by
  decide

/-- C1 (amended): on a well-formed stable tree, for every existing
non-root canonical path with at most `FH_MAXLEN` components and total
length under `NFS_MAXPATHLEN`, decoding the encoded handle returns exactly
the original path (leading slash included, because the resolver's `lead`
strings carry a doubled leading slash of which `lead + 1` drops only one);
for the root itself the round trip holds only when the uninitialized `len`
stack value happens to be 0. -/
theorem C1_roundtrip (fs t : FsTree) (comps : List CStr) (junk : List Nat)
    (hwf : Wf fs) (hne : comps ≠ [])
    (hfind : fsFind fs comps = some t) (hdepth : comps.length ≤ FH_MAXLEN)
    (hblen : (pathStr comps).length + 1 < NFS_MAXPATHLEN) :
    fh_decomp_raw fs (fh_comp_raw fs (pathStr comps) false junk) =
      some (pathStr comps) :=
  roundtrip_main junk hwf hne hfind hdepth hblen

theorem C1_roundtrip_witness :
    Wf demoFs ∧
    fh_decomp_raw demoFs (fh_comp_raw demoFs (pathStr compsDemo) false [9]) =
      some (pathStr compsDemo) :=
  ⟨by decide,
   C1_roundtrip demoFs (.node ⟨1, 30, 0, false⟩ []) compsDemo [9]
     (by decide) (by decide) rfl (by decide) (by decide)⟩

/-- C2 counterexample: on the spec's own scenario tree `/a/b/c` (inodes
10, 20, 30), the encoder records three hashes — the final component
included — so `len = 3` and `inos = [h(10), h(20), h(30)]`, not the
claimed `len = 2`, `inos = [h(10), h(20)]`. -/
theorem C2_counterexample :
    (fh_comp_raw demoFs (strOf "/a/b/c") false []).len ≠ 2 ∧
    (fh_comp_raw demoFs (strOf "/a/b/c") false []).inos =
      [fhHash 10, fhHash 20, fhHash 30] := by
  decide

/-- C2 (amended): for every existing non-root path, the handle carries the
object's own `dev`/`ino`/`gen` and a trail of the 8-bit inode hashes of
every prefix of the path — the ancestors and the final object itself — in
root-to-object order, so `len` equals the number of path components. -/
theorem C2_encode_trail (fs t : FsTree) (comps : List CStr) (junk : List Nat)
    (hwf : Wf fs) (hne : comps ≠ [])
    (hfind : fsFind fs comps = some t)
    (hdepth : comps.length ≤ FH_MAXLEN) :
    fh_comp_raw fs (pathStr comps) false junk =
      ⟨t.st.dev, t.st.ino, get_gen t.st, trailDown fs comps⟩ ∧
    (fh_comp_raw fs (pathStr comps) false junk).len = comps.length := by
  have h := fh_comp_raw_ok junk hwf hne hfind hdepth
  refine ⟨h, ?_⟩
  rw [h]
  simpa [UFH.len] using trailDown_length hfind

theorem C2_encode_trail_witness :
    Wf demoFs ∧
    fh_comp_raw demoFs (pathStr compsDemo) false [] = ⟨1, 30, 0, [10, 20, 30]⟩ :=
  ⟨by decide,
   ((C2_encode_trail demoFs (.node ⟨1, 30, 0, false⟩ []) compsDemo []
     (by decide) (by decide) rfl (by decide)).1).trans (by decide)⟩

/-- C10 counterexample: resolving the handle of `/a/b` finds the object
while scanning at depth 2 (`lead = "//a"`), and the returned path is
`"/a/b"` — the leading slash is retained, not stripped to `"a/b"`,
because only one of the two leading slashes of the lead is dropped. -/
theorem C10_counterexample :
    fh_decomp_raw demoFs ⟨1, 20, 0, [10, 20]⟩ = some (strOf "/a/b") ∧
    strOf "/a/b" ≠ strOf "a/b" := by
  decide

/-- C10 (amended): also for matches at depth 2 or more the resolved path
keeps a single leading '/' (the absolute path of the object): the lead at
depth ≥ 2 starts with a doubled slash, so dropping its first character
still leaves a slash-led path, and at depth 1 `lead + 1` is empty and the
result `"/name"` keeps its slash as well. -/
theorem C10_lead_slash (fs t : FsTree) (comps : List CStr) (junk : List Nat)
    (hwf : Wf fs) (h2 : 2 ≤ comps.length)
    (hfind : fsFind fs comps = some t) (hdepth : comps.length ≤ FH_MAXLEN)
    (hblen : (pathStr comps).length + 1 < NFS_MAXPATHLEN) :
    fh_decomp_raw fs (fh_comp_raw fs (pathStr comps) false junk) =
      some (pathStr comps) ∧
    (pathStr comps).head? = some '/' := by
  have hne : comps ≠ [] := by
    intro h
    rw [h] at h2
    simp at h2
  refine ⟨roundtrip_main junk hwf hne hfind hdepth hblen, ?_⟩
  cases comps with
  | nil => exact absurd rfl hne
  | cons c cs =>
    rw [pathStr_cons]
    rfl

theorem C10_lead_slash_witness :
    Wf demoFs ∧
    fh_decomp_raw demoFs
        (fh_comp_raw demoFs (pathStr [strOf "a", strOf "b"]) false []) =
      some (pathStr [strOf "a", strOf "b"]) ∧
    (pathStr [strOf "a", strOf "b"]).head? = some '/' := by
  have h := C10_lead_slash demoFs
    (.node ⟨1, 20, 0, true⟩ [(strOf "c", .node ⟨1, 30, 0, false⟩ [])])
    [strOf "a", strOf "b"] [] (by decide) (by decide) rfl (by decide)
    (by decide)
  exact ⟨by decide, h.1, h.2⟩

theorem idxLoop_none (cache : Nat → CacheEntry) (dev ino : Nat) :
    ∀ is : List Nat,
      (∀ i ∈ is, ¬((cache i).dev = dev ∧ (cache i).ino = ino)) →
      idxLoop cache dev ino is = none := by
  intro is
  induction is with
  | nil => intro _; rfl
  | cons i is ih =>
    intro h
    rw [idxLoop, if_neg (h i (by simp))]
    exact ih (fun j hj => h j (List.mem_cons_of_mem _ hj))

theorem lruLoop_skip (cache : Nat → CacheEntry) :
    ∀ (is : List Nat) (best : Int) (bestIdx : Nat), best < 0 →
      (∀ i ∈ is, (cache i).use ≠ 0) →
      lruLoop cache is best bestIdx = bestIdx := by
  intro is
  induction is with
  | nil => intro best bestIdx _ _; rfl
  | cons i is ih =>
    intro best bestIdx hneg hall
    rw [lruLoop, if_neg (hall i (by simp))]
    have hlt : ¬(((cache i).use : Int) < best) := by
      have h0 : (0 : Int) ≤ ((cache i).use : Int) := Int.ofNat_nonneg _
      omega
    rw [if_neg hlt]
    exact ih best bestIdx hneg (fun j hj => hall j (List.mem_cons_of_mem _ hj))

set_option maxRecDepth 100000 in
/-- When the cache is full (`fh_cache_max` saturated and every slot in
use), the scan of `fh_cache_lru` always returns slot 0: the comparison
`fh_cache[i].use < best` can never fire against the initial `best = -1`,
so `best_idx` keeps its initial value — the "least recently used" slot is
never actually computed. -/
theorem fh_cache_lru_full (s : FhState)
    (hmax : ¬s.fh_cache_max < CACHE_ENTRIES - 1)
    (hfull : ∀ i ∈ List.range CACHE_ENTRIES, (s.fh_cache i).use ≠ 0) :
    (fh_cache_lru s).1 = 0 := by
  rw [fh_cache_lru, if_neg hmax]
  exact lruLoop_skip s.fh_cache (List.range CACHE_ENTRIES) (-1) 0
    (by decide) hfull

/-- C5: with the cache full (`fh_cache_max = 4095`, all 4096 slots in
use), adding an uncached `(dev, ino) = (2, 5000)` overwrites slot 0 (whose
`use` stamp is 100) even though slot 1 holds the strictly smaller — and
minimal — stamp 7, which survives untouched: the evicted slot is not a
least-recently-used slot. -/
theorem C5_lru_eval :
    (fh_cache_add lruState 2 5000 (strOf "/q")).fh_cache 0 =
      ⟨2, 5000, strOf "/q", 201⟩ ∧
    (fh_cache_add lruState 2 5000 (strOf "/q")).fh_cache 1 =
      ⟨1, 3, strOf "/p1", 7⟩ ∧
    (lruState.fh_cache 1).use < (lruState.fh_cache 0).use ∧
    (lruState.fh_cache 1).use ≠ 0 := by
  have h19 : ¬lruState.fh_cache_max < CACHE_ENTRIES - 1 := by decide
  have hdev1 : ∀ i, (lruState.fh_cache i).dev = 1 := by
    intro i
    by_cases h0 : i = 0
    · simp [lruState, h0]
    · by_cases h1 : i = 1 <;> simp [lruState, h0, h1]
  have huse : ∀ i, (lruState.fh_cache i).use ≠ 0 := by
    intro i
    by_cases h0 : i = 0
    · simp [lruState, h0]
    · by_cases h1 : i = 1 <;> simp [lruState, h0, h1]
  have hidx : fh_cache_index lruState 2 5000 = none := by
    rw [fh_cache_index]
    apply idxLoop_none
    intro i _ hcon
    rw [hdev1 i] at hcon
    exact absurd hcon.1 (by decide)
  have hlru1 : (fh_cache_lru lruState).1 = 0 :=
    fh_cache_lru_full lruState h19 (fun i _ => huse i)
  have hlru2 : (fh_cache_lru lruState).2 = lruState := by
    rw [fh_cache_lru, if_neg h19]
  have hp : (match fh_cache_index lruState 2 5000 with
      | some i => (i, lruState)
      | none => fh_cache_lru lruState) = (0, lruState) := by
    rw [hidx]
    show fh_cache_lru lruState = (0, lruState)
    have heta : ((fh_cache_lru lruState).1, (fh_cache_lru lruState).2) =
        fh_cache_lru lruState := Prod.mk.eta
    rw [← heta, hlru1, hlru2]
  rw [fh_cache_add, hp]
  refine ⟨?_, ?_, ?_, ?_⟩
  · simp [fh_cache_inval, fh_cache_next, lruState]
  · simp [fh_cache_inval, fh_cache_next, lruState, emptyCE]
  · simp [lruState]
  · simp [lruState]

theorem fh_cache_lookup_found {fs : FsTree} {s : FhState} {dev ino i : Nat}
    (hidx : fh_cache_index s dev ino = some i) :
    fh_cache_lookup fs s dev ino =
      (match lstatP fs (s.fh_cache i).path with
      | none => (none, fh_cache_inval s i)
      | some buf =>
        if buf.dev = dev ∧ buf.ino = ino then
          (some (s.fh_cache i).path,
            { (fh_cache_next s).2 with
              fh_cache := fun j =>
                if j = i then
                  { (fh_cache_next s).2.fh_cache j with
                    use := (fh_cache_next s).1 }
                else (fh_cache_next s).2.fh_cache j,
              st_cache_valid := true,
              st_cache := buf })
        else (none, fh_cache_inval s i)) := by
  rw [fh_cache_lookup, hidx]

/-- C9: whenever `fh_cache_lookup` returns a stored path, the re-`lstat`
of that path succeeded during the call and reported exactly the requested
`(dev, ino)`, the attribute cache is valid and holds that stat, and the
slot's `use` stamp is bumped to the next LRU stamp; and whenever the found
slot's path fails the re-`lstat` or reports different ids, the slot is
cleared and the lookup misses, so a stale path is never returned. -/
theorem C9_lookup (fs : FsTree) (s : FhState) (dev ino : Nat) :
    (∀ p, (fh_cache_lookup fs s dev ino).1 = some p →
      ∃ i, fh_cache_index s dev ino = some i ∧ p = (s.fh_cache i).path ∧
        ∃ buf, lstatP fs p = some buf ∧ buf.dev = dev ∧ buf.ino = ino ∧
          (fh_cache_lookup fs s dev ino).2.st_cache_valid = true ∧
          (fh_cache_lookup fs s dev ino).2.st_cache = buf ∧
          ((fh_cache_lookup fs s dev ino).2.fh_cache i).use =
            s.fh_cache_time + 1 ∧
          (fh_cache_lookup fs s dev ino).2.fh_cache_time =
            s.fh_cache_time + 1) ∧
    (∀ i, fh_cache_index s dev ino = some i →
      staleAt fs s i dev ino = true →
      (fh_cache_lookup fs s dev ino).1 = none ∧
      (fh_cache_lookup fs s dev ino).2.fh_cache i = emptyCE) := by
  constructor
  · intro p hp
    cases hidx : fh_cache_index s dev ino with
    | none =>
      rw [fh_cache_lookup, hidx] at hp
      simp at hp
    | some i =>
      rw [fh_cache_lookup_found hidx] at hp ⊢
      cases hst : lstatP fs (s.fh_cache i).path with
      | none =>
        rw [hst] at hp
        simp at hp
      | some buf =>
        rw [hst] at hp
        simp only [] at hp ⊢
        by_cases hm : buf.dev = dev ∧ buf.ino = ino
        · rw [if_pos hm] at hp ⊢
          replace hp : some (s.fh_cache i).path = some p := hp
          injection hp with hp1
          refine ⟨i, rfl, hp1.symm, buf, ?_, hm.1, hm.2, ?_, ?_, ?_, ?_⟩
          · rw [← hp1]
            exact hst
          · rfl
          · rfl
          · simp [fh_cache_next]
          · rfl
        · rw [if_neg hm] at hp
          simp at hp
  · intro i hidx hstale
    rw [staleAt] at hstale
    rw [fh_cache_lookup_found hidx]
    cases hst : lstatP fs (s.fh_cache i).path with
    | none =>
      exact ⟨rfl, by simp [fh_cache_inval]⟩
    | some buf =>
      rw [hst] at hstale
      simp only [] at hstale ⊢
      have hm : ¬(buf.dev = dev ∧ buf.ino = ino) := by
        intro hcon
        rw [hcon.1, hcon.2] at hstale
        simp at hstale
      rw [if_neg hm]
      exact ⟨rfl, by simp [fh_cache_inval]⟩

theorem C9_lookup_witness :
    (fh_cache_lookup demoFs hitState 1 30).2.st_cache_valid = true ∧
    (fh_cache_lookup demoFs staleState 1 99).1 = none ∧
    (fh_cache_lookup demoFs staleState 1 99).2.fh_cache 0 = emptyCE := by
  refine ⟨?_, ?_, ?_⟩
  · obtain ⟨i, -, -, buf, -, -, -, hv, -⟩ :=
      (C9_lookup demoFs hitState 1 30).1 (strOf "/a/b/c") (by decide)
    exact hv
  · exact ((C9_lookup demoFs staleState 1 99).2 0 (by decide) (by decide)).1
  · exact ((C9_lookup demoFs staleState 1 99).2 0 (by decide) (by decide)).2
